import Mathlib

/-!
Verification of the CH-form stabilizer-state container (`chstate.py`)
against its specification.

The Python class `CHState` stores, for an N-qubit state, three N×N
uint8 matrices `A`/`B`/`C` (exposed under the aliases `F`/`G`/`M`),
three length-N uint8 vectors `g` (alias `gamma`), `v`, `s`, and a
complex `phase` (alias `w`).  We embed it shallowly:

* uint8 entries become `Nat`, with every arithmetic operation taking
  its value mod 256 exactly where numpy's uint8 wraparound applies;
* numpy arrays become `List Nat` / `List (List Nat)`, and the
  elementwise operations of `__add__` / `__sub__` carry numpy's
  broadcasting rule for one- and two-dimensional arrays (a dimension
  matches another if they are equal or one of them is 1; otherwise
  the operation raises, which we model as `none`);
* Python `complex` becomes an exact pair of rationals `Cplx`
  (floating-point rounding is idealized away; complex division by
  zero raises in Python and is modelled as `none` in `sub`);
* `None`-able parameters become `Option` arguments, matching the
  `N == None` / `s is None` dispatch of `CHState.basis` (note that in
  Python `0 == None` is `False`, so `N = 0` takes the `N != None`
  branch);
* `delete_qubit` keeps the source's mask/outer/reshape mechanics:
  numpy's bounds check for `mask[k] = False` accepts any integer
  `k` with `-N ≤ k < N` (negative indices count from the end), and
  `A[np.outer(mask, mask)].reshape(N-1, N-1)` is embedded as
  "flatten the entries kept by the two-dimensional mask, then chunk
  the flat list into rows of length N−1".
-/

/-- Exact complex numbers: pairs of rationals, standing in for Python's
floating-point `complex`. -/
structure Cplx where
  re : ℚ
  im : ℚ
deriving DecidableEq, Repr

namespace Cplx

def zero : Cplx := ⟨0, 0⟩

def one : Cplx := ⟨1, 0⟩

/-- Complex multiplication. -/
def mul (x y : Cplx) : Cplx :=
  ⟨x.re * y.re - x.im * y.im, x.re * y.im + x.im * y.re⟩

/-- Complex division (the textbook formula; Python raises on a zero
divisor, which callers model separately). -/
def div (x y : Cplx) : Cplx :=
  let d := y.re * y.re + y.im * y.im
  ⟨(x.re * y.re + x.im * y.im) / d, (x.im * y.re - x.re * y.im) / d⟩

end Cplx

/-- numpy uint8 addition: wraps modulo 256. -/
def addU8 (a b : Nat) : Nat := (a % 256 + b % 256) % 256

/-- numpy uint8 subtraction: wraps modulo 256 (negative differences
wrap around, e.g. `0 - 1 = 255`). -/
def subU8 (a b : Nat) : Nat := (a % 256 + (256 - b % 256)) % 256

/-- One entry of `(x + y) % m` as computed on uint8 arrays. -/
def addMod (m a b : Nat) : Nat := addU8 a b % m

/-- One entry of `(x - y) % m` as computed on uint8 arrays. -/
def subMod (m a b : Nat) : Nat := subU8 a b % m

/-- numpy's broadcast rule for one dimension: sizes are compatible when
they are equal or one of them is 1; the result size is the larger. -/
def bdim (a b : Nat) : Option Nat :=
  if a = b then some a else if a = 1 then some b else if b = 1 then some a else none

/-- Read entry `i` of a (possibly length-1, broadcast) vector.  For the
shapes numpy accepts, `i % xs.length` is `i` when the vector has full
length and `0` when it is being stretched from length 1. -/
def bGet (xs : List Nat) (i : Nat) : Nat := xs.getD (i % xs.length) 0

/-- Elementwise combination of two 1-D numpy arrays, with broadcasting;
`none` models the `ValueError` raised on incompatible shapes. -/
def ewise1 (f : Nat → Nat → Nat) (xs ys : List Nat) : Option (List Nat) :=
  match bdim xs.length ys.length with
  | some n => some ((List.range n).map fun i => f (bGet xs i) (bGet ys i))
  | none => none

/-- Number of columns of a rectangular matrix. -/
def ncols (m : List (List Nat)) : Nat := (m.headD []).length

/-- Read entry `(i, j)` of a (possibly broadcast) matrix. -/
def bGet2 (m : List (List Nat)) (i j : Nat) : Nat := bGet (m.getD (i % m.length) []) j

/-- Elementwise combination of two 2-D numpy arrays, with broadcasting
in both axes; `none` models the `ValueError` on incompatible shapes. -/
def ewise2 (f : Nat → Nat → Nat) (xs ys : List (List Nat)) : Option (List (List Nat)) :=
  match bdim xs.length ys.length, bdim (ncols xs) (ncols ys) with
  | some r, some c =>
      some ((List.range r).map fun i => (List.range c).map fun j => f (bGet2 xs i j) (bGet2 ys i j))
  | _, _ => none

/-- The matrix `np.eye (n, dtype=uint8)` as a list of rows. -/
def eye (n : Nat) : List (List Nat) :=
  (List.range n).map fun i => (List.range n).map fun j => if i = j then 1 else 0

/-- The matrix `np.zeros ((n, n), dtype=uint8)`. -/
def zeros2 (n : Nat) : List (List Nat) := List.replicate n (List.replicate n 0)

/-- The vector `np.zeros (n, dtype=uint8)`. -/
def zeros1 (n : Nat) : List Nat := List.replicate n 0

/-- The CH-form state: qubit count `N`, bit matrices `A`, `B`, `C`
(aliased `F`, `G`, `M`), phase-exponent vector `g` (alias `gamma`),
Hadamard markers `v`, basis bitstring `s`, and global `phase`
(alias `w`). -/
structure CHState where
  N : Nat
  A : List (List Nat)
  B : List (List Nat)
  C : List (List Nat)
  g : List Nat
  v : List Nat
  s : List Nat
  phase : Cplx
deriving DecidableEq, Repr

namespace CHState

/-- Coercion `np.array (s, dtype=np.uint8)`: turn a sequence of integers into a
uint8 bit vector (each entry reduced mod 256). -/
def coerceU8 (s : List Nat) : List Nat := s.map (· % 256)

/-- The `N == None and not s is None` branch of `CHState.basis`: the
computational basis state of the bitstring `s`. -/
def fromBits (s : List Nat) : CHState :=
  { N := s.length
    A := eye s.length
    B := eye s.length
    C := zeros2 s.length
    g := zeros1 s.length
    v := zeros1 s.length
    s := coerceU8 s
    phase := Cplx.one }

/-- The factory `CHState.basis (N, s)` with optional arguments, following the four
branches of the source (`None` is `none`; recall `0 == None` is
`False` in Python, so `N = 0` is dispatched like any other integer). -/
def basis (N : Option Nat) (s : Option (List Nat)) : CHState :=
  match N, s with
  | none, none =>
      { N := 1, A := eye 1, B := eye 1, C := zeros2 1,
        g := zeros1 1, v := zeros1 1, s := zeros1 1, phase := Cplx.one }
  | some n, none =>
      { N := n, A := eye n, B := eye n, C := zeros2 n,
        g := zeros1 n, v := zeros1 n, s := zeros1 n, phase := Cplx.one }
  | none, some bits => fromBits bits
  | some n, some bits =>
      let b2 := coerceU8 bits
      if n ≤ b2.length then fromBits (b2.take n)
      else fromBits (b2 ++ List.replicate (n - b2.length) 0)

/-- Alias `F` reads the `A` field. -/
def F (st : CHState) : List (List Nat) := st.A

/-- Alias `G` reads the `B` field. -/
def G (st : CHState) : List (List Nat) := st.B

/-- Alias `M` reads the `C` field. -/
def M (st : CHState) : List (List Nat) := st.C

/-- Alias `gamma` reads the `g` field. -/
def gamma (st : CHState) : List Nat := st.g

/-- Alias `w` reads the `phase` field. -/
def w (st : CHState) : Cplx := st.phase

/-- The `F.setter`: writing through `F` stores into `A`. -/
def setF (st : CHState) (m : List (List Nat)) : CHState := { st with A := m }

/-- Writing the `A` field directly. -/
def setA (st : CHState) (m : List (List Nat)) : CHState := { st with A := m }

/-- The `G.setter`: writing through `G` stores into `B`. -/
def setG (st : CHState) (m : List (List Nat)) : CHState := { st with B := m }

/-- Writing the `B` field directly. -/
def setB (st : CHState) (m : List (List Nat)) : CHState := { st with B := m }

/-- The `M.setter`: writing through `M` stores into `C`. -/
def setM (st : CHState) (m : List (List Nat)) : CHState := { st with C := m }

/-- Writing the `C` field directly. -/
def setC (st : CHState) (m : List (List Nat)) : CHState := { st with C := m }

/-- The `gamma.setter`: writing through `gamma` stores into `g`. -/
def setGamma (st : CHState) (x : List Nat) : CHState := { st with g := x }

/-- Writing the `g` field directly. -/
def setg (st : CHState) (x : List Nat) : CHState := { st with g := x }

/-- The `w.setter`: writing through `w` stores into `phase`. -/
def setW (st : CHState) (c : Cplx) : CHState := { st with phase := c }

/-- Writing the `phase` field directly. -/
def setPhase (st : CHState) (c : Cplx) : CHState := { st with phase := c }

/-- Difference `__sub__`: entrywise uint8 differences reduced mod 2 (mod 4 for
`g`) with numpy broadcasting, and phase division.  `none` models the
exceptions the Python code can raise: a shape `ValueError` from a
failed broadcast, or `ZeroDivisionError` from `phase / 0`. -/
def sub (x y : CHState) : Option CHState :=
  match ewise2 (subMod 2) x.A y.A, ewise2 (subMod 2) x.B y.B, ewise2 (subMod 2) x.C y.C,
        ewise1 (subMod 4) x.g y.g, ewise1 (subMod 2) x.v y.v, ewise1 (subMod 2) x.s y.s with
  | some a, some b, some c, some gg, some vv, some ss =>
      if y.phase = Cplx.zero then none
      else some { N := x.N, A := a, B := b, C := c, g := gg, v := vv, s := ss,
                  phase := Cplx.div x.phase y.phase }
  | _, _, _, _, _, _ => none

/-- Sum `__add__`: entrywise uint8 sums reduced mod 2 (mod 4 for `g`) with
numpy broadcasting, and phase multiplication.  `none` models the shape
`ValueError` from a failed broadcast. -/
def add (x y : CHState) : Option CHState :=
  match ewise2 (addMod 2) x.A y.A, ewise2 (addMod 2) x.B y.B, ewise2 (addMod 2) x.C y.C,
        ewise1 (addMod 4) x.g y.g, ewise1 (addMod 2) x.v y.v, ewise1 (addMod 2) x.s y.s with
  | some a, some b, some c, some gg, some vv, some ss =>
      some { N := x.N, A := a, B := b, C := c, g := gg, v := vv, s := ss,
             phase := Cplx.mul x.phase y.phase }
  | _, _, _, _, _, _ => none

end CHState

/-- The boolean keep-mask of `delete_qubit`: `np.ones (N, dtype=bool)`
with entry `j` set to `False`. -/
def maskList (N j : Nat) : List Bool :=
  (List.range N).map fun i => decide (i ≠ j)

/-- numpy boolean-mask indexing on a 1-D array: keep the entries whose
mask bit is `true`. -/
def applyMask {α : Type} (xs : List α) (m : List Bool) : List α :=
  (xs.zip m).filterMap fun p => if p.2 then some p.1 else none

/-- numpy boolean-mask indexing on a 2-D array with the outer-product
mask `np.outer (m, m)`: row `i` contributes its masked entries when
`m i` is `true` and nothing otherwise; the result is the flat list of
kept entries in row-major order. -/
def mask2dApply (A : List (List Nat)) (m : List Bool) : List Nat :=
  ((A.zip m).map fun p => if p.2 then applyMask p.1 m else []).flatten

/-- Reshaping `reshape (·, n)` of a flat list: split into consecutive rows of
length `n`. -/
def chunks {α : Type} (n : Nat) : List α → List (List α)
  | [] => []
  | x :: xs => ((x :: xs).take n) :: chunks n (xs.drop (n - 1))
termination_by xs => xs.length
decreasing_by simp; omega

namespace CHState

/-- Qubit deletion `delete_qubit k`: numpy's bounds check on `mask[k] = False`
accepts exactly the integers `-N ≤ k < N` (negative `k` counts from
the end) and raises `IndexError` otherwise (modelled as `none`).
Inside the range the source keeps the unmasked rows, columns and
entries of every field and copies the phase; the `reshape (N-1, N-1)`
is modelled as chunking the flat masked matrix into rows of length
`N - 1`, which is what reshape does for the `N × N` fields the
data-model invariant guarantees. -/
def delete_qubit (st : CHState) (k : Int) : Option CHState :=
  if -(st.N : Int) ≤ k ∧ k < (st.N : Int) then
    let j : Nat := (if k < 0 then k + st.N else k).toNat
    let m := maskList st.N j
    some { N := st.N - 1,
           A := chunks (st.N - 1) (mask2dApply st.A m),
           B := chunks (st.N - 1) (mask2dApply st.B m),
           C := chunks (st.N - 1) (mask2dApply st.C m),
           g := applyMask st.g m,
           v := applyMask st.v m,
           s := applyMask st.s m,
           phase := st.phase }
  else none

end CHState

/-- A string of `n` blanks (`" " * n`). -/
def spaces (n : Nat) : String := String.mk (List.replicate n ' ')

namespace CHState

/-- The header row built by `tab` (the first line of its output, up to
the trailing newline): `qubitNumberStrLen` is the length of
`str(N) + " "`, `matrix_width` is `N` and `half_matrix_width` is
`N // 2`. -/
def tabHeader (st : CHState) : String :=
  let s0 : String := Nat.repr st.N ++ " "
  let qubitNumberStrLen := s0.length
  let matrix_width := st.N
  let half_matrix_width := st.N / 2
  "N" ++ spaces (qubitNumberStrLen - 1 + half_matrix_width) ++ "F" ++ spaces matrix_width ++
    "G" ++ spaces matrix_width ++ "M" ++ spaces (matrix_width - half_matrix_width) ++ "g v s w"

end CHState

/-- The matrix with row `k` and column `k` removed, keeping the
remaining rows and columns in their relative order (the spec's
description of qubit deletion). -/
def removeRowCol (A : List (List Nat)) (k : Nat) : List (List Nat) :=
  (A.eraseIdx k).map fun r => r.eraseIdx k

/-- Shape invariant: `st` is a well-formed state of size `n`: the recorded qubit count
is `n`, the matrices are `n × n`, and the vectors have length `n`
(the data-model invariant of the spec). -/
def shapeOk (st : CHState) (n : Nat) : Prop :=
  st.N = n ∧
  st.A.length = n ∧ (∀ r ∈ st.A, r.length = n) ∧
  st.B.length = n ∧ (∀ r ∈ st.B, r.length = n) ∧
  st.C.length = n ∧ (∀ r ∈ st.C, r.length = n) ∧
  st.g.length = n ∧ st.v.length = n ∧ st.s.length = n

instance (st : CHState) (n : Nat) : Decidable (shapeOk st n) := by
  unfold shapeOk; infer_instance

/-- All stored entries are reduced: bits in `{0, 1}` for `A`, `B`, `C`,
`v`, `s` and values in `{0, 1, 2, 3}` for `g`. -/
def reducedEntries (st : CHState) : Prop :=
  (∀ r ∈ st.A, ∀ x ∈ r, x < 2) ∧
  (∀ r ∈ st.B, ∀ x ∈ r, x < 2) ∧
  (∀ r ∈ st.C, ∀ x ∈ r, x < 2) ∧
  (∀ x ∈ st.g, x < 4) ∧ (∀ x ∈ st.v, x < 2) ∧ (∀ x ∈ st.s, x < 2)

instance (st : CHState) : Decidable (reducedEntries st) := by
  unfold reducedEntries; infer_instance

/-- Coercion to uint8 leaves an already-reduced bit vector unchanged. -/
theorem coerceU8_of_bits {l : List Nat} (h : ∀ x ∈ l, x < 256) :
    CHState.coerceU8 l = l := by
  unfold CHState.coerceU8
  induction l with
  | nil => rfl
  | cons a t ih =>
      simp only [List.map_cons]
      rw [Nat.mod_eq_of_lt (h a (List.mem_cons_self a t)),
        ih (fun x hx => h x (List.mem_cons_of_mem a hx))]

/-- C1: For every `N ≥ 1` and every 0/1 bitstring `s` of length
`N`, `basis (N, s)` is the canonical basis configuration
(`F = G = identity`, `M = 0`, `gamma = v = 0`, `phase = 1`, `s` as
requested), and with no arguments `basis` returns this configuration
for `N = 1` with `s = [0]`. -/
theorem basis_canonical :
    (∀ (N : Nat) (bits : List Nat), 1 ≤ N → bits.length = N → (∀ x ∈ bits, x < 2) →
      CHState.basis (some N) (some bits) =
        { N := N, A := eye N, B := eye N, C := zeros2 N,
          g := zeros1 N, v := zeros1 N, s := bits, phase := Cplx.one }) ∧
    CHState.basis none none =
      { N := 1, A := eye 1, B := eye 1, C := zeros2 1,
        g := zeros1 1, v := zeros1 1, s := [0], phase := Cplx.one } := by
  constructor
  · intro N bits _ hlen hbits
    have hco : CHState.coerceU8 bits = bits :=
      coerceU8_of_bits (fun x hx => Nat.lt_trans (hbits x hx) (by norm_num))
    have hbasis : CHState.basis (some N) (some bits) = CHState.fromBits bits := by
      unfold CHState.basis
      simp only [hco]
      rw [if_pos (le_of_eq hlen.symm)]
      rw [show bits.take N = bits from hlen ▸ List.take_length bits]
    rw [hbasis]
    unfold CHState.fromBits
    simp only [hlen, hco]
  · rfl

/-- Witness for C1 at `N = 2`, `s = [1, 0]`. -/
theorem basis_canonical_witness :
    CHState.basis (some 2) (some [1, 0]) =
      { N := 2, A := eye 2, B := eye 2, C := zeros2 2,
        g := zeros1 2, v := zeros1 2, s := [1, 0], phase := Cplx.one } :=
  basis_canonical.1 2 [1, 0] (by decide) (by decide) (by decide)

/-- C2: For every `N ≥ 1` and every bitstring `s` of any length,
`basis (N, s)` equals `basis (none, s')` where `s'` is `s` truncated to
its first `N` entries when `N ≤ len s`, and `s` right-padded with zero
bits when `N > len s`; no error is raised for mismatched lengths. -/
theorem basis_truncate_extend (N : Nat) (bits : List Nat) (hN : 1 ≤ N) :
    CHState.basis (some N) (some bits) =
      CHState.basis none
        (some (if N ≤ bits.length then bits.take N
               else bits ++ List.replicate (N - bits.length) 0)) := by
  clear hN
  have hbranch : CHState.basis (some N) (some bits) =
      (if N ≤ (CHState.coerceU8 bits).length
       then CHState.fromBits ((CHState.coerceU8 bits).take N)
       else CHState.fromBits
         (CHState.coerceU8 bits ++ List.replicate (N - (CHState.coerceU8 bits).length) 0)) := rfl
  have hfrom : ∀ l : List Nat, CHState.basis none (some l) = CHState.fromBits l :=
    fun _ => rfl
  have hidem : ∀ l : List Nat, CHState.fromBits (CHState.coerceU8 l) = CHState.fromBits l := by
    intro l
    have hco : CHState.coerceU8 (CHState.coerceU8 l) = CHState.coerceU8 l := by
      refine coerceU8_of_bits (fun x hx => ?_)
      unfold CHState.coerceU8 at hx
      obtain ⟨y, _, rfl⟩ := List.mem_map.mp hx
      exact Nat.mod_lt y (by norm_num)
    unfold CHState.fromBits
    have hlen : (CHState.coerceU8 l).length = l.length := List.length_map l _
    rw [hco, hlen]
  have hlen : (CHState.coerceU8 bits).length = bits.length := List.length_map bits _
  rw [hbranch]
  by_cases h : N ≤ bits.length
  · rw [if_pos (hlen ▸ h), if_pos h, hfrom]
    have htake : (CHState.coerceU8 bits).take N = CHState.coerceU8 (bits.take N) :=
      (List.map_take _ bits N).symm
    rw [htake, hidem]
  · rw [if_neg (hlen ▸ h), if_neg h, hfrom]
    have hcat : CHState.coerceU8 bits ++ List.replicate (N - (CHState.coerceU8 bits).length) 0 =
        CHState.coerceU8 (bits ++ List.replicate (N - bits.length) 0) := by
      unfold CHState.coerceU8
      rw [List.map_append, List.map_replicate, List.length_map]
    rw [hcat, hidem]

/-- Witness for C2 in both regimes: truncation at `N = 2`,
`s = [1, 1, 1]` and extension at `N = 4`, `s = [1, 0]`. -/
theorem basis_truncate_extend_witness :
    CHState.basis (some 2) (some [1, 1, 1]) =
      CHState.basis none
        (some (if 2 ≤ [1, 1, 1].length then [1, 1, 1].take 2
               else [1, 1, 1] ++ List.replicate (2 - [1, 1, 1].length) 0)) ∧
    CHState.basis (some 4) (some [1, 0]) =
      CHState.basis none
        (some (if 4 ≤ [1, 0].length then [1, 0].take 4
               else [1, 0] ++ List.replicate (4 - [1, 0].length) 0)) :=
  ⟨basis_truncate_extend 2 [1, 1, 1] (by decide),
   basis_truncate_extend 4 [1, 0] (by decide)⟩

/-- C10: `basis (N := 0)` with `s` omitted does not fall back to
the single-qubit default: it yields the size-0 state with empty
matrices and vectors and phase 1, raising no error. -/
theorem basis_zero_qubits :
    CHState.basis (some 0) none =
      { N := 0, A := [], B := [], C := [], g := [], v := [], s := [],
        phase := Cplx.one } := by
  rfl

/-- C8: For every alias pair `F`/`A`, `G`/`B`, `M`/`C`,
`gamma`/`g`, `w`/`phase` and every value, writing through either name
and reading through the other returns the identical value: the two
names resolve to the same underlying field. -/
theorem alias_transparency (st : CHState) (m1 m2 m3 : List (List Nat))
    (x : List Nat) (c : Cplx) :
    ((st.setF m1).A = m1 ∧ (st.setA m1).F = m1) ∧
    ((st.setG m2).B = m2 ∧ (st.setB m2).G = m2) ∧
    ((st.setM m3).C = m3 ∧ (st.setC m3).M = m3) ∧
    ((st.setGamma x).g = x ∧ (st.setg x).gamma = x) ∧
    ((st.setW c).phase = c ∧ (st.setPhase c).w = c) :=
  ⟨⟨rfl, rfl⟩, ⟨rfl, rfl⟩, ⟨rfl, rfl⟩, ⟨rfl, rfl⟩, ⟨rfl, rfl⟩⟩

/-- Every entry of an `ewise1` result is a value of `f`. -/
theorem ewise1_entries {f : Nat → Nat → Nat} {xs ys zs : List Nat}
    (h : ewise1 f xs ys = some zs) :
    ∀ x ∈ zs, ∃ a b, x = f a b := by
  unfold ewise1 at h
  cases hb : bdim xs.length ys.length with
  | none => rw [hb] at h; exact absurd h (by simp)
  | some n =>
      rw [hb] at h
      obtain rfl : (List.range n).map (fun i => f (bGet xs i) (bGet ys i)) = zs :=
        Option.some.inj h
      intro x hx
      obtain ⟨i, _, rfl⟩ := List.mem_map.mp hx
      exact ⟨_, _, rfl⟩

/-- Every entry of an `ewise2` result is a value of `f`. -/
theorem ewise2_entries {f : Nat → Nat → Nat} {xs ys zs : List (List Nat)}
    (h : ewise2 f xs ys = some zs) :
    ∀ r ∈ zs, ∀ x ∈ r, ∃ a b, x = f a b := by
  unfold ewise2 at h
  cases hr : bdim xs.length ys.length with
  | none => rw [hr] at h; exact absurd h (by simp)
  | some r =>
      cases hc : bdim (ncols xs) (ncols ys) with
      | none => rw [hr, hc] at h; exact absurd h (by simp)
      | some c =>
          rw [hr, hc] at h
          obtain rfl :
              (List.range r).map
                (fun i => (List.range c).map fun j => f (bGet2 xs i j) (bGet2 ys i j)) = zs :=
            Option.some.inj h
          intro row hrow x hx
          obtain ⟨i, _, rfl⟩ := List.mem_map.mp hrow
          obtain ⟨j, _, rfl⟩ := List.mem_map.mp hx
          exact ⟨_, _, rfl⟩

/-- Values of `subMod m` always land below `m` (for positive `m`). -/
theorem subMod_lt {m : Nat} (hm : 0 < m) (a b : Nat) : subMod m a b < m :=
  Nat.mod_lt _ hm

/-- Values of `addMod m` always land below `m` (for positive `m`). -/
theorem addMod_lt {m : Nat} (hm : 0 < m) (a b : Nat) : addMod m a b < m :=
  Nat.mod_lt _ hm

/-- Broadcasting `bdim` on two equal sizes. -/
theorem bdim_self (n : Nat) : bdim n n = some n := by
  unfold bdim; rw [if_pos rfl]

/-- Broadcasting `bdim` fails on distinct sizes when neither is 1. -/
theorem bdim_eq_none {a b : Nat} (hab : a ≠ b) (ha : a ≠ 1) (hb : b ≠ 1) :
    bdim a b = none := by
  unfold bdim; rw [if_neg hab, if_neg ha, if_neg hb]

/-- Broadcast indexing into a full-length vector is plain indexing. -/
theorem bGet_eq_getElem {xs : List Nat} {i : Nat} (h : i < xs.length) :
    bGet xs i = xs[i] := by
  unfold bGet
  rw [Nat.mod_eq_of_lt h]
  simp [List.getD, List.getElem?_eq_getElem h]

/-- Broadcast indexing into a full-size matrix is plain indexing. -/
theorem bGet2_eq_getElem {A : List (List Nat)} {i j : Nat} (hi : i < A.length)
    (hj : j < A[i].length) : bGet2 A i j = A[i][j] := by
  unfold bGet2
  rw [Nat.mod_eq_of_lt hi]
  have : A.getD i [] = A[i] := by simp [List.getD, List.getElem?_eq_getElem hi]
  rw [this]
  exact bGet_eq_getElem hj

/-- The column count of a rectangular `n × n` matrix. -/
theorem ncols_eq {A : List (List Nat)} {n : Nat} (hlen : A.length = n)
    (hrow : ∀ r ∈ A, r.length = n) : ncols A = n := by
  unfold ncols
  cases A with
  | nil => simpa using hlen
  | cons r t => exact hrow r (List.mem_cons_self r t)

/-- Applying `ewise1` on two equal-length vectors: no broadcasting happens. -/
theorem ewise1_eq {f : Nat → Nat → Nat} {xs ys : List Nat} {n : Nat}
    (hx : xs.length = n) (hy : ys.length = n) :
    ewise1 f xs ys = some ((List.range n).map fun i => f (bGet xs i) (bGet ys i)) := by
  unfold ewise1
  rw [hx, hy, bdim_self]

/-- Applying `ewise2` on two rectangular `n × n` matrices: no broadcasting. -/
theorem ewise2_eq {f : Nat → Nat → Nat} {A B : List (List Nat)} {n : Nat}
    (hA : A.length = n) (hAr : ∀ r ∈ A, r.length = n)
    (hB : B.length = n) (hBr : ∀ r ∈ B, r.length = n) :
    ewise2 f A B =
      some ((List.range n).map fun i =>
        (List.range n).map fun j => f (bGet2 A i j) (bGet2 B i j)) := by
  unfold ewise2
  rw [hA, hB, ncols_eq hA hAr, ncols_eq hB hBr, bdim_self]

/-- Entrywise cancellation: adding `b` back after subtracting it, all
under uint8 wraparound and a final reduction mod 2 or mod 4, recovers
a reduced `a`. -/
theorem addMod_subMod_cancel {m : Nat} (hm : m = 2 ∨ m = 4) {a : Nat} (b : Nat)
    (ha : a < m) : addMod m (subMod m a b) b = a := by
  rcases hm with rfl | rfl <;>
  · unfold addMod subMod addU8 subU8
    omega

/-- Vector-level cancellation: `(xs - ys) + ys = xs` under matched
mod-`m` arithmetic, for reduced `xs` of the same length as `ys`. -/
theorem ewise1_cancel {m : Nat} (hm : m = 2 ∨ m = 4) {xs ys zs : List Nat} {n : Nat}
    (hx : xs.length = n) (hy : ys.length = n) (hred : ∀ x ∈ xs, x < m)
    (h : ewise1 (subMod m) xs ys = some zs) :
    ewise1 (addMod m) zs ys = some xs := by
  rw [ewise1_eq hx hy] at h
  obtain rfl := (Option.some.inj h).symm
  rw [ewise1_eq (by simp) hy]
  congr 1
  apply List.ext_getElem
  · simp [hx]
  · intro i h1 h2
    have hi : i < n := by simpa using h1
    have hxi : i < xs.length := hx ▸ hi
    simp only [List.getElem_map, List.getElem_range]
    rw [bGet_eq_getElem (by simpa using hi), List.getElem_map, List.getElem_range,
      bGet_eq_getElem hxi]
    exact addMod_subMod_cancel hm _ (hred _ (List.getElem_mem hxi))

/-- Matrix-level cancellation: `(A - B) + B = A` under matched mod-`m`
arithmetic, for reduced rectangular `A` of the same shape as `B`. -/
theorem ewise2_cancel {m : Nat} (hm : m = 2 ∨ m = 4) {A B Z : List (List Nat)} {n : Nat}
    (hA : A.length = n) (hAr : ∀ r ∈ A, r.length = n)
    (hB : B.length = n) (hBr : ∀ r ∈ B, r.length = n)
    (hred : ∀ r ∈ A, ∀ x ∈ r, x < m)
    (h : ewise2 (subMod m) A B = some Z) :
    ewise2 (addMod m) Z B = some A := by
  rw [ewise2_eq hA hAr hB hBr] at h
  obtain rfl := (Option.some.inj h).symm
  have hZr : ∀ r ∈ (List.range n).map fun i =>
      (List.range n).map fun j => subMod m (bGet2 A i j) (bGet2 B i j), r.length = n := by
    intro r hr
    obtain ⟨i, _, rfl⟩ := List.mem_map.mp hr
    simp
  rw [ewise2_eq (by simp) hZr hB hBr]
  congr 1
  apply List.ext_getElem
  · simp [hA]
  · intro i h1 h2
    have hi : i < n := by simpa using h1
    have hAi : i < A.length := hA ▸ hi
    simp only [List.getElem_map, List.getElem_range]
    apply List.ext_getElem
    · simp [hAr _ (List.getElem_mem hAi)]
    · intro j h3 h4
      have hj : j < n := by simpa using h3
      have hAij : j < A[i].length := (hAr _ (List.getElem_mem hAi)) ▸ hj
      simp only [List.getElem_map, List.getElem_range]
      rw [bGet2_eq_getElem (by simpa using hi) (by simpa using hj)]
      simp only [List.getElem_map, List.getElem_range]
      rw [bGet2_eq_getElem hAi hAij]
      exact addMod_subMod_cancel hm _
        (hred _ (List.getElem_mem hAi) _ (List.getElem_mem hAij))

/-- C5: Whenever the difference or the sum of two states is
defined, every entry of its `F`, `G`, `M`, `v`, `s` fields lies in
`{0, 1}` and every entry of its `gamma` field lies in `{0, 1, 2, 3}`,
whatever the stored entry values of the operands were (uint8
wraparound reduces even "negative" differences). -/
theorem modular_closure (x y : CHState) :
    (∀ d, x.sub y = some d → reducedEntries d) ∧
    (∀ e, x.add y = some e → reducedEntries e) := by
  constructor
  · intro d hd
    unfold CHState.sub at hd
    cases ha : ewise2 (subMod 2) x.A y.A with
    | none => rw [ha] at hd; exact absurd hd (by simp)
    | some a =>
    cases hb : ewise2 (subMod 2) x.B y.B with
    | none => rw [ha, hb] at hd; exact absurd hd (by simp)
    | some b =>
    cases hc : ewise2 (subMod 2) x.C y.C with
    | none => rw [ha, hb, hc] at hd; exact absurd hd (by simp)
    | some c =>
    cases hg : ewise1 (subMod 4) x.g y.g with
    | none => rw [ha, hb, hc, hg] at hd; exact absurd hd (by simp)
    | some gg =>
    cases hv : ewise1 (subMod 2) x.v y.v with
    | none => rw [ha, hb, hc, hg, hv] at hd; exact absurd hd (by simp)
    | some vv =>
    cases hs : ewise1 (subMod 2) x.s y.s with
    | none => rw [ha, hb, hc, hg, hv, hs] at hd; exact absurd hd (by simp)
    | some ss =>
      rw [ha, hb, hc, hg, hv, hs] at hd
      dsimp only at hd
      by_cases hph : y.phase = Cplx.zero
      · rw [if_pos hph] at hd; exact absurd hd (by simp)
      · rw [if_neg hph] at hd
        obtain rfl := (Option.some.inj hd).symm
        refine ⟨?_, ?_, ?_, ?_, ?_, ?_⟩ <;> intro r hr
        · intro z hz
          obtain ⟨p, q, rfl⟩ := ewise2_entries ha r hr z hz
          exact subMod_lt (by norm_num) p q
        · intro z hz
          obtain ⟨p, q, rfl⟩ := ewise2_entries hb r hr z hz
          exact subMod_lt (by norm_num) p q
        · intro z hz
          obtain ⟨p, q, rfl⟩ := ewise2_entries hc r hr z hz
          exact subMod_lt (by norm_num) p q
        · obtain ⟨p, q, rfl⟩ := ewise1_entries hg r hr
          exact subMod_lt (by norm_num) p q
        · obtain ⟨p, q, rfl⟩ := ewise1_entries hv r hr
          exact subMod_lt (by norm_num) p q
        · obtain ⟨p, q, rfl⟩ := ewise1_entries hs r hr
          exact subMod_lt (by norm_num) p q
  · intro e he
    unfold CHState.add at he
    cases ha : ewise2 (addMod 2) x.A y.A with
    | none => rw [ha] at he; exact absurd he (by simp)
    | some a =>
    cases hb : ewise2 (addMod 2) x.B y.B with
    | none => rw [ha, hb] at he; exact absurd he (by simp)
    | some b =>
    cases hc : ewise2 (addMod 2) x.C y.C with
    | none => rw [ha, hb, hc] at he; exact absurd he (by simp)
    | some c =>
    cases hg : ewise1 (addMod 4) x.g y.g with
    | none => rw [ha, hb, hc, hg] at he; exact absurd he (by simp)
    | some gg =>
    cases hv : ewise1 (addMod 2) x.v y.v with
    | none => rw [ha, hb, hc, hg, hv] at he; exact absurd he (by simp)
    | some vv =>
    cases hs : ewise1 (addMod 2) x.s y.s with
    | none => rw [ha, hb, hc, hg, hv, hs] at he; exact absurd he (by simp)
    | some ss =>
      rw [ha, hb, hc, hg, hv, hs] at he
      dsimp only at he
      obtain rfl := (Option.some.inj he).symm
      refine ⟨?_, ?_, ?_, ?_, ?_, ?_⟩ <;> intro r hr
      · intro z hz
        obtain ⟨p, q, rfl⟩ := ewise2_entries ha r hr z hz
        exact addMod_lt (by norm_num) p q
      · intro z hz
        obtain ⟨p, q, rfl⟩ := ewise2_entries hb r hr z hz
        exact addMod_lt (by norm_num) p q
      · intro z hz
        obtain ⟨p, q, rfl⟩ := ewise2_entries hc r hr z hz
        exact addMod_lt (by norm_num) p q
      · obtain ⟨p, q, rfl⟩ := ewise1_entries hg r hr
        exact addMod_lt (by norm_num) p q
      · obtain ⟨p, q, rfl⟩ := ewise1_entries hv r hr
        exact addMod_lt (by norm_num) p q
      · obtain ⟨p, q, rfl⟩ := ewise1_entries hs r hr
        exact addMod_lt (by norm_num) p q

/-- Witness for C5 on states with extreme uint8 entries: the
difference produces "negative" values before wraparound, yet every
resulting entry is reduced. -/
theorem modular_closure_witness :
    CHState.sub
        { N := 1, A := [[0]], B := [[1]], C := [[0]], g := [0], v := [0], s := [0],
          phase := Cplx.one }
        { N := 1, A := [[255]], B := [[0]], C := [[1]], g := [3], v := [1], s := [1],
          phase := Cplx.one } =
      some { N := 1, A := [[1]], B := [[1]], C := [[1]], g := [1], v := [1], s := [1],
             phase := Cplx.one } ∧
    reducedEntries
      { N := 1, A := [[1]], B := [[1]], C := [[1]], g := [1], v := [1], s := [1],
        phase := Cplx.one } :=
  ⟨by simp [CHState.sub, ewise2, ewise1, bdim, ncols, bGet, bGet2, subMod, subU8,
      Cplx.div, Cplx.one, Cplx.zero, List.range_succ],
   (modular_closure
      { N := 1, A := [[0]], B := [[1]], C := [[0]], g := [0], v := [0], s := [0],
        phase := Cplx.one }
      { N := 1, A := [[255]], B := [[0]], C := [[1]], g := [3], v := [1], s := [1],
        phase := Cplx.one }).1 _
     (by simp [CHState.sub, ewise2, ewise1, bdim, ncols, bGet, bGet2, subMod, subU8,
        Cplx.div, Cplx.one, Cplx.zero, List.range_succ])⟩

/-- Dividing by a nonzero complex number and multiplying it back is
the identity (exact arithmetic). -/
theorem Cplx.div_mul_cancel {x y : Cplx} (hy : y ≠ Cplx.zero) :
    Cplx.mul (Cplx.div x y) y = x := by
  obtain ⟨xr, xi⟩ := x
  obtain ⟨yr, yi⟩ := y
  have hd : yr * yr + yi * yi ≠ 0 := by
    intro h
    obtain ⟨h1, h2⟩ :=
      (add_eq_zero_iff_of_nonneg (mul_self_nonneg yr) (mul_self_nonneg yi)).mp h
    exact hy (by simp [Cplx.zero, mul_self_eq_zero.mp h1, mul_self_eq_zero.mp h2])
  unfold Cplx.mul Cplx.div
  simp only [Cplx.mk.injEq]
  constructor <;> field_simp <;> ring

/-- C4: For same-size states `X`, `Y` (with `X` carrying reduced
entries, as the data-model invariant requires), whenever `X - Y` is
defined, `(X - Y) + Y` recovers `X` exactly: the bit and
phase-exponent fields cancel under the matched mod-2 / mod-4
arithmetic, and `(X - Y).phase * Y.phase = X.phase` (exact complex
arithmetic standing in for "up to floating-point tolerance"). -/
theorem sub_add_duality {x y d : CHState} {n : Nat}
    (hx : shapeOk x n) (hy : shapeOk y n) (hred : reducedEntries x)
    (hsub : CHState.sub x y = some d) :
    CHState.add d y = some x := by
  obtain ⟨hxN, hxA, hxAr, hxB, hxBr, hxC, hxCr, hxg, hxv, hxs⟩ := hx
  obtain ⟨hyN, hyA, hyAr, hyB, hyBr, hyC, hyCr, hyg, hyv, hys⟩ := hy
  obtain ⟨hrA, hrB, hrC, hrg, hrv, hrs⟩ := hred
  unfold CHState.sub at hsub
  cases ha : ewise2 (subMod 2) x.A y.A with
  | none => rw [ha] at hsub; exact absurd hsub (by simp)
  | some a =>
  cases hb : ewise2 (subMod 2) x.B y.B with
  | none => rw [ha, hb] at hsub; exact absurd hsub (by simp)
  | some b =>
  cases hc : ewise2 (subMod 2) x.C y.C with
  | none => rw [ha, hb, hc] at hsub; exact absurd hsub (by simp)
  | some c =>
  cases hg : ewise1 (subMod 4) x.g y.g with
  | none => rw [ha, hb, hc, hg] at hsub; exact absurd hsub (by simp)
  | some gg =>
  cases hv : ewise1 (subMod 2) x.v y.v with
  | none => rw [ha, hb, hc, hg, hv] at hsub; exact absurd hsub (by simp)
  | some vv =>
  cases hs : ewise1 (subMod 2) x.s y.s with
  | none => rw [ha, hb, hc, hg, hv, hs] at hsub; exact absurd hsub (by simp)
  | some ss =>
    rw [ha, hb, hc, hg, hv, hs] at hsub
    dsimp only at hsub
    by_cases hph : y.phase = Cplx.zero
    · rw [if_pos hph] at hsub; exact absurd hsub (by simp)
    · rw [if_neg hph] at hsub
      obtain rfl := (Option.some.inj hsub).symm
      unfold CHState.add
      rw [ewise2_cancel (Or.inl rfl) hxA hxAr hyA hyAr hrA ha,
        ewise2_cancel (Or.inl rfl) hxB hxBr hyB hyBr hrB hb,
        ewise2_cancel (Or.inl rfl) hxC hxCr hyC hyCr hrC hc,
        ewise1_cancel (Or.inr rfl) hxg hyg hrg hg,
        ewise1_cancel (Or.inl rfl) hxv hyv hrv hv,
        ewise1_cancel (Or.inl rfl) hxs hys hrs hs]
      dsimp only
      rw [Cplx.div_mul_cancel hph]

/-- Witness for C4 at concrete two-qubit states. -/
theorem sub_add_duality_witness :
    CHState.sub (CHState.basis (some 2) (some [1, 0])) (CHState.basis (some 2) (some [1, 1])) =
      some { N := 2, A := zeros2 2, B := zeros2 2, C := zeros2 2,
             g := zeros1 2, v := zeros1 2, s := [0, 1], phase := Cplx.one } ∧
    CHState.add
        { N := 2, A := zeros2 2, B := zeros2 2, C := zeros2 2,
          g := zeros1 2, v := zeros1 2, s := [0, 1], phase := Cplx.one }
        (CHState.basis (some 2) (some [1, 1])) =
      some (CHState.basis (some 2) (some [1, 0])) :=
  ⟨by simp [CHState.basis, CHState.fromBits, CHState.coerceU8, CHState.sub, ewise2, ewise1,
      bdim, ncols, bGet, bGet2, subMod, subU8, eye, zeros1, zeros2,
      Cplx.div, Cplx.one, Cplx.zero, List.range_succ],
   sub_add_duality
     (x := CHState.basis (some 2) (some [1, 0])) (y := CHState.basis (some 2) (some [1, 1]))
     (n := 2) (by decide) (by decide) (by decide)
     (by simp [CHState.basis, CHState.fromBits, CHState.coerceU8, CHState.sub, ewise2, ewise1,
        bdim, ncols, bGet, bGet2, subMod, subU8, eye, zeros1, zeros2,
        Cplx.div, Cplx.one, Cplx.zero, List.range_succ])⟩

/-- Counterexample to **C3** as stated: a single-qubit state and a
two-qubit state have unequal qubit counts, yet both their difference
and their sum succeed — numpy silently broadcasts the 1×1 matrices
and length-1 vectors against the 2×2 / length-2 ones instead of
raising a dimension-mismatch error. -/
theorem sub_add_mismatch_counterexample :
    (CHState.basis (some 1) none).N ≠ (CHState.basis (some 2) none).N ∧
    (CHState.sub (CHState.basis (some 1) none) (CHState.basis (some 2) none)).isSome = true ∧
    (CHState.add (CHState.basis (some 1) none) (CHState.basis (some 2) none)).isSome = true :=
  ⟨by decide, rfl, rfl⟩

/-- C3 amended: For every pair of states with unequal qubit
counts that are both at least 2, the difference and the sum fail with
a dimension-mismatch error (no silent truncation); when one operand
has qubit count 1, numpy's broadcasting rule applies instead and the
operation silently succeeds (see the counterexample). -/
theorem sub_add_mismatch_amended {x y : CHState} {n m : Nat}
    (hx : shapeOk x n) (hy : shapeOk y m) (hnm : n ≠ m)
    (hn : 2 ≤ n) (hm : 2 ≤ m) :
    CHState.sub x y = none ∧ CHState.add x y = none := by
  obtain ⟨-, hxA, hxAr, -, -, -, -, -, -, -⟩ := hx
  obtain ⟨-, hyA, hyAr, -, -, -, -, -, -, -⟩ := hy
  have hb : bdim x.A.length y.A.length = none := by
    rw [hxA, hyA]
    exact bdim_eq_none hnm (by omega) (by omega)
  have hA : ewise2 (subMod 2) x.A y.A = none := by
    unfold ewise2
    rw [hb]
  have hA' : ewise2 (addMod 2) x.A y.A = none := by
    unfold ewise2
    rw [hb]
  constructor
  · unfold CHState.sub
    rw [hA]
  · unfold CHState.add
    rw [hA']

/-- Witness for the amended C3 at sizes 2 and 3. -/
theorem sub_add_mismatch_amended_witness :
    CHState.sub (CHState.basis (some 2) none) (CHState.basis (some 3) none) = none ∧
    CHState.add (CHState.basis (some 2) none) (CHState.basis (some 3) none) = none :=
  sub_add_mismatch_amended (n := 2) (m := 3)
    (by decide) (by decide) (by decide) (by decide) (by decide)

/-- Unfolding `applyMask` on a cons cell. -/
theorem applyMask_cons {α : Type} (a : α) (t : List α) (b : Bool) (m : List Bool) :
    applyMask (a :: t) (b :: m) = if b then a :: applyMask t m else applyMask t m := by
  unfold applyMask
  cases b <;> simp

/-- An all-true mask keeps the whole list. -/
theorem applyMask_replicate_true {α : Type} (t : List α) :
    applyMask t (List.replicate t.length true) = t := by
  induction t with
  | nil => rfl
  | cons a t ih =>
      rw [List.length_cons, List.replicate_succ, applyMask_cons, if_pos rfl, ih]

/-- Masking a list with the keep-mask that clears position `j` removes
exactly the entry at index `j`. -/
theorem applyMask_maskList {α : Type} (xs : List α) (j : Nat) :
    applyMask xs (maskList xs.length j) = xs.eraseIdx j := by
  induction xs generalizing j with
  | nil => rfl
  | cons a t ih =>
      rw [List.length_cons]
      unfold maskList
      rw [List.range_succ_eq_map, List.map_cons, List.map_map]
      cases j with
      | zero =>
          have hmask : (List.range t.length).map ((fun i => decide (i ≠ 0)) ∘ Nat.succ) =
              List.replicate t.length true := by
            have h1 : (List.range t.length).map ((fun i => decide (i ≠ 0)) ∘ Nat.succ) =
                (List.range t.length).map (fun _ => true) :=
              List.map_congr_left (fun i _ => by simp)
            rw [h1, List.map_const', List.length_range]
          rw [hmask]
          have hhead : decide (0 ≠ 0) = false := by decide
          rw [hhead, applyMask_cons, if_neg (by simp), applyMask_replicate_true,
            List.eraseIdx_cons_zero]
      | succ j' =>
          have hmask : (List.range t.length).map ((fun i => decide (i ≠ j' + 1)) ∘ Nat.succ) =
              maskList t.length j' := by
            unfold maskList
            exact List.map_congr_left (fun i _ => by simp [Nat.succ_ne_succ])
          rw [hmask]
          have hhead : decide (0 ≠ j' + 1) = true := by simp
          rw [hhead, applyMask_cons, if_pos rfl, ih, List.eraseIdx_cons_succ]

/-- The flat outer-product-masked matrix is the flattening of the
row-masked, then entry-masked, matrix. -/
theorem mask2dApply_eq_flatten (A : List (List Nat)) (m0 : List Bool) :
    ∀ m : List Bool,
      ((A.zip m).map fun p => if p.2 then applyMask p.1 m0 else []).flatten =
        ((applyMask A m).map fun r => applyMask r m0).flatten := by
  induction A with
  | nil => intro m; rfl
  | cons r A2 ih =>
      intro m
      cases m with
      | nil => rfl
      | cons b m2 =>
          rw [List.zip_cons_cons, List.map_cons, List.flatten_cons, applyMask_cons]
          cases b
          · simp only [Bool.false_eq_true, if_false, List.nil_append]
            exact ih m2
          · simp only [if_true, List.map_cons, List.flatten_cons]
            rw [ih m2]

/-- Chunking an empty flat list gives no rows. -/
theorem chunks_nil {α : Type} (n : Nat) : chunks n ([] : List α) = [] := by
  rw [chunks]

/-- Re-chunking the flattening of a list of length-`n` rows recovers
the rows (for `n > 0`). -/
theorem chunks_flatten {α : Type} {n : Nat} (hn : 0 < n) :
    ∀ L : List (List α), (∀ r ∈ L, r.length = n) → chunks n L.flatten = L := by
  intro L
  induction L with
  | nil => intro _; rw [List.flatten_nil, chunks_nil]
  | cons r L2 ih =>
      intro hlen
      have hr : r.length = n := hlen r (List.mem_cons_self r L2)
      obtain ⟨a, r2, rfl⟩ : ∃ a r2, r = a :: r2 := by
        cases r with
        | nil => exact absurd (hr ▸ hn) (by simp)
        | cons a r2 => exact ⟨a, r2, rfl⟩
      rw [List.flatten_cons, List.cons_append]
      rw [chunks]
      have hlen2 : r2.length = n - 1 := by
        rw [List.length_cons] at hr; omega
      have htake : (a :: (r2 ++ L2.flatten)).take n = a :: r2 := by
        obtain ⟨p, rfl⟩ : ∃ p, n = p + 1 := ⟨n - 1, by omega⟩
        rw [List.take_succ_cons]
        have : p = r2.length := by omega
        rw [this, List.take_left]
      have hdrop : (r2 ++ L2.flatten).drop (n - 1) = L2.flatten := by
        rw [← hlen2, List.drop_left]
      rw [htake, hdrop, ih (fun q hq => hlen q (List.mem_cons_of_mem _ hq))]

/-- The mask-flatten-reshape pipeline of `delete_qubit`, on an `n × n`
matrix, removes exactly row `k` and column `k`. -/
theorem chunks_mask2dApply {A : List (List Nat)} {n k : Nat} (hA : A.length = n)
    (hAr : ∀ r ∈ A, r.length = n) (hk : k < n) :
    chunks (n - 1) (mask2dApply A (maskList n k)) = removeRowCol A k := by
  have hflat : mask2dApply A (maskList n k) = (removeRowCol A k).flatten := by
    unfold mask2dApply
    rw [mask2dApply_eq_flatten A (maskList n k) (maskList n k)]
    congr 1
    have houter : maskList n k = maskList A.length k := by rw [hA]
    rw [houter, applyMask_maskList]
    unfold removeRowCol
    apply List.map_congr_left
    intro r hr
    have hmem : r ∈ A := List.mem_of_mem_eraseIdx hr
    have hinner : maskList A.length k = maskList r.length k := by
      rw [hA, hAr r hmem]
    rw [hinner, applyMask_maskList]
  rw [hflat]
  by_cases h1 : n = 1
  · subst h1
    have hk0 : k = 0 := by omega
    subst hk0
    have hnil : removeRowCol A 0 = [] := by
      unfold removeRowCol
      have : (A.eraseIdx 0).length = 0 := by
        rw [List.length_eraseIdx]; simp [hA]
      rw [List.length_eq_zero.mp this]
      rfl
    rw [hnil, List.flatten_nil, chunks_nil]
  · refine chunks_flatten (by omega) _ (fun r hr => ?_)
    unfold removeRowCol at hr
    obtain ⟨r0, hr0, rfl⟩ := List.mem_map.mp hr
    have hmem : r0 ∈ A := List.mem_of_mem_eraseIdx hr0
    rw [List.length_eraseIdx]
    simp [hAr r0 hmem, hk]

/-- C6: For every well-formed state of size `n ≥ 1` and every
index `k` with `0 ≤ k < n`, `delete_qubit k` returns a state of size
`n − 1` whose `F`, `G`, `M` are the original matrices with row `k`
and column `k` removed (relative order preserved), whose `gamma`,
`v`, `s` have entry `k` removed, and whose phase is the original
phase.  (The original value is untouched: the operation constructs a
new record.) -/
theorem delete_qubit_spec {st : CHState} {n : Nat} (hst : shapeOk st n)
    (k : Nat) (hk : k < n) :
    st.delete_qubit (k : Int) =
      some { N := n - 1,
             A := removeRowCol st.A k,
             B := removeRowCol st.B k,
             C := removeRowCol st.C k,
             g := st.g.eraseIdx k,
             v := st.v.eraseIdx k,
             s := st.s.eraseIdx k,
             phase := st.phase } := by
  obtain ⟨hN, hA, hAr, hB, hBr, hC, hCr, hg, hv, hs⟩ := hst
  unfold CHState.delete_qubit
  rw [if_pos (by rw [hN]; omega)]
  simp only [hN]
  have hj : (if (k : Int) < 0 then (k : Int) + (n : Int) else (k : Int)).toNat = k := by
    rw [if_neg (by omega), Int.toNat_natCast]
  rw [hj]
  have hvec : ∀ xs : List Nat, xs.length = n → applyMask xs (maskList n k) = xs.eraseIdx k := by
    intro xs hxs
    rw [← hxs, applyMask_maskList]
  rw [chunks_mask2dApply hA hAr hk, chunks_mask2dApply hB hBr hk, chunks_mask2dApply hC hCr hk,
    hvec st.g hg, hvec st.v hv, hvec st.s hs]

/-- Witness for C6: deleting qubit 1 of the three-qubit basis state. -/
theorem delete_qubit_spec_witness :
    (CHState.basis (some 3) none).delete_qubit (1 : Int) =
      some { N := 2,
             A := removeRowCol (eye 3) 1,
             B := removeRowCol (eye 3) 1,
             C := removeRowCol (zeros2 3) 1,
             g := (zeros1 3).eraseIdx 1,
             v := (zeros1 3).eraseIdx 1,
             s := (zeros1 3).eraseIdx 1,
             phase := Cplx.one } :=
  @delete_qubit_spec (CHState.basis (some 3) none) 3 (by decide) 1 (by decide)

/-- Counterexample to **C7** as stated: `k = -1` lies outside
`[0, N)`, yet `delete_qubit (-1)` on a two-qubit state does not fail —
numpy interprets the negative index against the mask, so it deletes
the last qubit, exactly like `delete_qubit 1`. -/
theorem delete_qubit_bounds_counterexample :
    ((CHState.basis (some 2) none).delete_qubit (-1)).isSome = true ∧
    (CHState.basis (some 2) none).delete_qubit (-1) =
      (CHState.basis (some 2) none).delete_qubit (1 : Int) :=
  ⟨rfl, rfl⟩

/-- C7 amended: `delete_qubit k` fails with a bounds error
exactly when `k` lies outside `[-N, N)`: numpy's negative indexing
accepts `-N ≤ k < 0` (deleting qubit `N + k`, see the counterexample)
and raises `IndexError` only for `k < -N` or `k ≥ N`. -/
theorem delete_qubit_bounds_amended (st : CHState) (k : Int) :
    st.delete_qubit k = none ↔ (k < -(st.N : Int) ∨ (st.N : Int) ≤ k) := by
  unfold CHState.delete_qubit
  by_cases h : -(st.N : Int) ≤ k ∧ k < (st.N : Int)
  · rw [if_pos h]
    constructor
    · intro hc
      exact absurd hc (by simp)
    · intro hc
      exact ((by omega : False)).elim
  · rw [if_neg h]
    constructor
    · intro _
      omega
    · intro _
      rfl

/-- Counterexample to **C9** as stated: for the single-qubit basis
state, the claim's formula `len(str(N)) - 1 + N//2` predicts zero
blanks between the `N` and `F` header labels, but `tab` actually
emits `len(str(N)) + N//2 = 1` blank (the source counts
`qubitNumberStrLen - 1` where `qubitNumberStrLen` is the length of
`str(N)` plus a trailing space). -/
theorem tab_header_counterexample :
    (CHState.basis (some 1) none).tabHeader ≠
      "N" ++ spaces ((Nat.repr 1).length - 1 + 1 / 2) ++ "F" ++ spaces 1 ++ "G" ++ spaces 1 ++
        "M" ++ spaces (1 - 1 / 2) ++ "g v s w" := by
  decide

/-- C9 amended: For every state, the header row of `tab` places
exactly `len(str(N)) + N//2` blank columns between the `N` label and
the `F` label (one more than the claim's formula), `N` blank columns
after each of the `F` and `G` labels, and `N - N//2` blank columns
after the `M` label, before the `g v s w` labels. -/
theorem tab_header_amended (st : CHState) :
    st.tabHeader =
      "N" ++ spaces ((Nat.repr st.N).length + st.N / 2) ++ "F" ++ spaces st.N ++
        "G" ++ spaces st.N ++ "M" ++ spaces (st.N - st.N / 2) ++ "g v s w" := by
  have h : st.tabHeader =
      "N" ++ spaces ((Nat.repr st.N ++ " ").length - 1 + st.N / 2) ++ "F" ++ spaces st.N ++
        "G" ++ spaces st.N ++ "M" ++ spaces (st.N - st.N / 2) ++ "g v s w" := rfl
  rw [h, String.length_append, show (" " : String).length = 1 from rfl, Nat.add_sub_cancel]
